import Mathlib

/-!
Verification of the pmatch word-level diff/merge engine.

Strings are modelled as `List Char`.  The definitions mirror, function by
function, the source files:
  * `frontend/src/lib/diff.ts` (`tokenize`, `lcsTable`, `diffWords`),
  * `frontend/src/app/workspace/components/inline-diff-resolver.tsx`
    (`groupOps`, `commit`, `setDecision`, the rendering of a change op), and
  * the `Contact` field-reconciliation controller in
    `frontend/src/app/workspace/components/workspace-sidebar.tsx`
    (`receiveProposal` via the incoming-data effect, `resolveIfDone`,
    `acceptAll`, `declineAll`, the per-field `onChange` handler).
-/

namespace PMatch

abbrev Str : Type := List Char

/-- JS `\s` membership test used by the tokenizer regex. -/
def isWsChar (c : Char) : Bool := c.isWhitespace

/-- `tokenize` from diff.ts: `input.match(/(\s+|[^\s]+)/g) ?? []`, i.e. the
split of the input into maximal whitespace-only or non-whitespace-only runs. -/
def tokenize : Str → List Str
  | [] => []
  | c :: cs =>
    match tokenize cs with
    | (d :: t) :: ts =>
      if isWsChar c = isWsChar d then (c :: d :: t) :: ts
      else [c] :: (d :: t) :: ts
    | ts => [c] :: ts

inductive SegType
  | equal
  | added
  | removed
deriving DecidableEq, Repr

/-- `DiffSegment` from diff.ts. -/
structure Seg where
  value : Str
  type : SegType
deriving DecidableEq, Repr

/-- The entry `dp[i][j]` of `lcsTable` from diff.ts, as a function of the
suffixes `a.slice(i)` and `b.slice(j)`:
`dp[i][j] = a[i] == b[j] ? dp[i+1][j+1] + 1 : max(dp[i+1][j], dp[i][j+1])`. -/
def lcsScore : List Str → List Str → Nat
  | [] => fun _ => 0
  | a :: as => fun bs =>
    let f := lcsScore as
    let rec go : List Str → Nat
      | [] => 0
      | b :: bs' => if a = b then f bs' + 1 else max (f (b :: bs')) (go bs')
    go bs

/-- The emission order of the `push` calls in `diffWords`' table walk: the
main loop while both sequences are nonempty (equal / removed-on-tie-or-better
/ added), followed by the two drain loops. -/
def walkSegs : List Str → List Str → List Seg
  | [] => fun bs => bs.map fun b => ⟨b, SegType.added⟩
  | a :: as => fun bs =>
    let w := walkSegs as
    let rec go : List Str → List Seg
      | [] => (a :: as).map fun x => ⟨x, SegType.removed⟩
      | b :: bs' =>
        if a = b then ⟨a, SegType.equal⟩ :: w bs'
        else if lcsScore as (b :: bs') ≥ lcsScore (a :: as) bs' then
          ⟨a, SegType.removed⟩ :: w (b :: bs')
        else ⟨b, SegType.added⟩ :: go bs'
    go bs

/-- `push` from diffWords: skip empty values, extend the last segment when it
has the same type, otherwise append a fresh segment. -/
def push (segs : List Seg) (t : SegType) (v : Str) : List Seg :=
  if v = [] then segs
  else
    match segs.getLast? with
    | some last =>
      if last.type = t then segs.dropLast ++ [⟨last.value ++ v, last.type⟩]
      else segs ++ [⟨v, t⟩]
    | none => segs ++ [⟨v, t⟩]

/-- `diffWords` from diff.ts: the table walk with `push`-coalescing of
adjacent same-type segments.  The walk is factored into `walkSegs` (the
sequence of `push` calls) folded through `push`. -/
def diffWords (oldText newText : Str) : List Seg :=
  (walkSegs (tokenize oldText) (tokenize newText)).foldl
    (fun acc s => push acc s.type s.value) []

theorem walkSegs_nil (bs : List Str) :
    walkSegs [] bs = bs.map fun b => ⟨b, SegType.added⟩ := rfl

theorem walkSegs_cons_nil (a : Str) (as : List Str) :
    walkSegs (a :: as) [] = (a :: as).map fun x => ⟨x, SegType.removed⟩ := rfl

theorem walkSegs_cons_cons (a : Str) (as : List Str) (b : Str) (bs : List Str) :
    walkSegs (a :: as) (b :: bs) =
      if a = b then ⟨a, SegType.equal⟩ :: walkSegs as bs
      else if lcsScore as (b :: bs) ≥ lcsScore (a :: as) bs then
        ⟨a, SegType.removed⟩ :: walkSegs as (b :: bs)
      else ⟨b, SegType.added⟩ :: walkSegs (a :: as) bs := rfl

theorem tokenize_cons_flatten (c : Char) (cs : Str) :
    (tokenize (c :: cs)).flatten = c :: (tokenize cs).flatten := by
  rw [tokenize]
  cases h : tokenize cs with
  | nil => simp
  | cons t ts =>
    cases t with
    | nil => simp
    | cons d t' =>
      by_cases hw : isWsChar c = isWsChar d
      · simp [hw]
      · simp [hw]

/-- The tokenizer invariant: concatenating all tokens reconstructs the input. -/
theorem tokenize_flatten (s : Str) : (tokenize s).flatten = s := by
  induction s with
  | nil => rfl
  | cons c cs ih => rw [tokenize_cons_flatten, ih]

/-! ### Side projections of segments -/

/-- The contribution of a segment to the old (`before`) side of the text:
every token of `oldText` appears in an equal or removed segment. -/
def segBefore (s : Seg) : Str :=
  match s.type with
  | SegType.added => []
  | _ => s.value

/-- The contribution of a segment to the new (`after`) side of the text. -/
def segAfter (s : Seg) : Str :=
  match s.type with
  | SegType.removed => []
  | _ => s.value

def segsBefore (l : List Seg) : Str := (l.map segBefore).flatten

def segsAfter (l : List Seg) : Str := (l.map segAfter).flatten

def segsValues (l : List Seg) : Str := (l.map Seg.value).flatten

theorem segsBefore_append (l₁ l₂ : List Seg) :
    segsBefore (l₁ ++ l₂) = segsBefore l₁ ++ segsBefore l₂ := by
  simp [segsBefore]

theorem segsAfter_append (l₁ l₂ : List Seg) :
    segsAfter (l₁ ++ l₂) = segsAfter l₁ ++ segsAfter l₂ := by
  simp [segsAfter]

theorem segsBefore_cons (s : Seg) (l : List Seg) :
    segsBefore (s :: l) = segBefore s ++ segsBefore l := rfl

theorem segsAfter_cons (s : Seg) (l : List Seg) :
    segsAfter (s :: l) = segAfter s ++ segsAfter l := rfl

/-! ### The walk covers each input exactly once on its own side -/

theorem walkSegs_before (a b : List Str) :
    segsBefore (walkSegs a b) = a.flatten := by
  induction a generalizing b with
  | nil =>
    rw [walkSegs_nil]
    induction b with
    | nil => rfl
    | cons y bs ihb => simp [segsBefore, segAfter, segBefore] at ihb ⊢
  | cons x as ih =>
    induction b with
    | nil =>
      rw [walkSegs_cons_nil]
      clear ih
      induction as with
      | nil => simp [segsBefore, segBefore]
      | cons z zs ihz => simpa [segsBefore, segBefore] using ihz
    | cons y bs ihb =>
      rw [walkSegs_cons_cons]
      by_cases hxy : x = y
      · simp only [if_pos hxy, segsBefore_cons, ih bs]
        simp [segBefore]
      · rw [if_neg hxy]
        by_cases hge : lcsScore as (y :: bs) ≥ lcsScore (x :: as) bs
        · simp only [if_pos hge, segsBefore_cons, ih (y :: bs)]
          simp [segBefore]
        · simp only [if_neg hge, segsBefore_cons, ihb]
          simp [segBefore]

theorem walkSegs_after (a b : List Str) :
    segsAfter (walkSegs a b) = b.flatten := by
  induction a generalizing b with
  | nil =>
    rw [walkSegs_nil]
    induction b with
    | nil => rfl
    | cons y bs ihb => simpa [segsAfter, segAfter] using ihb
  | cons x as ih =>
    induction b with
    | nil =>
      rw [walkSegs_cons_nil]
      clear ih
      induction as with
      | nil => simp [segsAfter, segAfter]
      | cons z zs ihz => simp [segsAfter, segAfter] at ihz ⊢
    | cons y bs ihb =>
      rw [walkSegs_cons_cons]
      by_cases hxy : x = y
      · simp only [if_pos hxy, segsAfter_cons, ih bs]
        simp [segAfter, hxy]
      · rw [if_neg hxy]
        by_cases hge : lcsScore as (y :: bs) ≥ lcsScore (x :: as) bs
        · simp only [if_pos hge, segsAfter_cons, ih (y :: bs)]
          simp [segAfter]
        · simp only [if_neg hge, segsAfter_cons, ihb]
          simp [segAfter]

/-! ### `push` and the coalescing fold preserve both projections -/

theorem push_before (segs : List Seg) (t : SegType) (v : Str) :
    segsBefore (push segs t v) = segsBefore segs ++ segBefore ⟨v, t⟩ := by
  rw [push]
  by_cases hv : v = []
  · simp [hv, segBefore]
    cases t <;> simp
  · rw [if_neg hv]
    rcases List.eq_nil_or_concat segs with h | ⟨l', last, h⟩
    · subst h
      simp [segsBefore, segsBefore_cons]
    · subst h
      rw [List.concat_eq_append, List.getLast?_concat]
      dsimp only
      by_cases ht : last.type = t
      · rw [if_pos ht, List.dropLast_concat]
        rw [segsBefore_append, segsBefore_append]
        simp only [segsBefore_cons, segsBefore]
        cases t with
        | added => simp [segBefore, ht]
        | equal => simp [segBefore, ht]
        | removed => simp [segBefore, ht]
      · rw [if_neg ht]
        rw [segsBefore_append, segsBefore_append]
        simp [segsBefore_cons, segsBefore]

theorem push_after (segs : List Seg) (t : SegType) (v : Str) :
    segsAfter (push segs t v) = segsAfter segs ++ segAfter ⟨v, t⟩ := by
  rw [push]
  by_cases hv : v = []
  · simp [hv, segAfter]
    cases t <;> simp
  · rw [if_neg hv]
    rcases List.eq_nil_or_concat segs with h | ⟨l', last, h⟩
    · subst h
      simp [segsAfter, segsAfter_cons]
    · subst h
      rw [List.concat_eq_append, List.getLast?_concat]
      dsimp only
      by_cases ht : last.type = t
      · rw [if_pos ht, List.dropLast_concat]
        rw [segsAfter_append, segsAfter_append]
        simp only [segsAfter_cons, segsAfter]
        cases t with
        | added => simp [segAfter, ht]
        | equal => simp [segAfter, ht]
        | removed => simp [segAfter, ht]
      · rw [if_neg ht]
        rw [segsAfter_append, segsAfter_append]
        simp [segsAfter_cons, segsAfter]

theorem foldl_push_before (l : List Seg) (init : List Seg) :
    segsBefore (l.foldl (fun acc s => push acc s.type s.value) init) =
      segsBefore init ++ segsBefore l := by
  induction l generalizing init with
  | nil => simp [segsBefore]
  | cons s rest ih =>
    rw [List.foldl_cons, ih, push_before, segsBefore_cons]
    simp

theorem foldl_push_after (l : List Seg) (init : List Seg) :
    segsAfter (l.foldl (fun acc s => push acc s.type s.value) init) =
      segsAfter init ++ segsAfter l := by
  induction l generalizing init with
  | nil => simp [segsAfter]
  | cons s rest ih =>
    rw [List.foldl_cons, ih, push_after, segsAfter_cons]
    simp

theorem diffWords_before (oldText newText : Str) :
    segsBefore (diffWords oldText newText) = oldText := by
  rw [diffWords, foldl_push_before, walkSegs_before, tokenize_flatten]
  rfl

theorem diffWords_after (oldText newText : Str) :
    segsAfter (diffWords oldText newText) = newText := by
  rw [diffWords, foldl_push_after, walkSegs_after, tokenize_flatten]
  rfl

/-! ### The Change Grouper (`groupOps` in inline-diff-resolver.tsx) -/

/-- `Op` from inline-diff-resolver.tsx. -/
inductive Op
  | equal (value : Str)
  | change (before after : Str)
deriving DecidableEq, Repr

def isRemovedSeg (s : Seg) : Bool := s.type == SegType.removed

def isAddedSeg (s : Seg) : Bool := s.type == SegType.added

/-- The two inner while loops of `groupOps`: collect the leading run of
removed segments into `before`, then the immediately following run of added
segments into `after`, and return both together with the unconsumed rest. -/
def splitChange (segs : List Seg) : Str × Str × List Seg :=
  let afterRemoved := segs.dropWhile isRemovedSeg
  (segsValues (segs.takeWhile isRemovedSeg),
   segsValues (afterRemoved.takeWhile isAddedSeg),
   afterRemoved.dropWhile isAddedSeg)

theorem splitChange_rest_length_lt (s : Seg) (rest : List Seg)
    (h : s.type ≠ SegType.equal) :
    (splitChange (s :: rest)).2.2.length < (s :: rest).length := by
  rw [splitChange]
  cases hs : s.type with
  | equal => exact absurd hs h
  | removed =>
    have h1 : List.dropWhile isRemovedSeg (s :: rest) = List.dropWhile isRemovedSeg rest := by
      rw [List.dropWhile_cons, if_pos (by simp [isRemovedSeg, hs])]
    simp only [h1]
    calc (List.dropWhile isAddedSeg (List.dropWhile isRemovedSeg rest)).length
        ≤ (List.dropWhile isRemovedSeg rest).length :=
          List.Sublist.length_le (List.dropWhile_sublist isAddedSeg)
      _ ≤ rest.length := List.Sublist.length_le (List.dropWhile_sublist isRemovedSeg)
      _ < (s :: rest).length := by simp
  | added =>
    have h1 : List.dropWhile isRemovedSeg (s :: rest) = s :: rest := by
      rw [List.dropWhile_cons, if_neg (by simp [isRemovedSeg, hs])]
    have h2 : List.dropWhile isAddedSeg (s :: rest) = List.dropWhile isAddedSeg rest := by
      rw [List.dropWhile_cons, if_pos (by simp [isAddedSeg, hs])]
    simp only [h1, h2]
    calc (List.dropWhile isAddedSeg rest).length
        ≤ rest.length := List.Sublist.length_le (List.dropWhile_sublist isAddedSeg)
      _ < (s :: rest).length := by simp

/-- The main loop of `groupOps`: equal segments pass through; otherwise one
change op is formed from the leading removed run and the following added run
(emitted only when one of the two sides is nonempty). -/
def groupSegs : List Seg → List Op
  | [] => []
  | s :: rest =>
    if h : s.type = SegType.equal then Op.equal s.value :: groupSegs rest
    else
      let p := splitChange (s :: rest)
      if p.1.length > 0 ∨ p.2.1.length > 0 then Op.change p.1 p.2.1 :: groupSegs p.2.2
      else groupSegs p.2.2
termination_by segs => segs.length
decreasing_by
  · simp
  · exact splitChange_rest_length_lt s rest h
  · exact splitChange_rest_length_lt s rest h

/-- `groupOps` from inline-diff-resolver.tsx. -/
def groupOps (before after : Str) : List Op :=
  groupSegs (diffWords before after)

/-! ### Projections of the operation list -/

def opBefore : Op → Str
  | Op.equal v => v
  | Op.change b _ => b

def opAfter : Op → Str
  | Op.equal v => v
  | Op.change _ a => a

def opsBefore (l : List Op) : Str := (l.map opBefore).flatten

def opsAfter (l : List Op) : Str := (l.map opAfter).flatten

theorem segsBefore_of_removed (l : List Seg)
    (h : ∀ x ∈ l, x.type = SegType.removed) : segsBefore l = segsValues l := by
  induction l with
  | nil => rfl
  | cons s rest ih =>
    have hs := h s (by simp)
    simp only [segsBefore_cons, segBefore, hs]
    rw [ih fun x hx => h x (by simp [hx])]
    rfl

theorem segsBefore_of_added (l : List Seg)
    (h : ∀ x ∈ l, x.type = SegType.added) : segsBefore l = [] := by
  induction l with
  | nil => rfl
  | cons s rest ih =>
    have hs := h s (by simp)
    simp only [segsBefore_cons, segBefore, hs]
    exact ih fun x hx => h x (by simp [hx])

theorem segsAfter_of_removed (l : List Seg)
    (h : ∀ x ∈ l, x.type = SegType.removed) : segsAfter l = [] := by
  induction l with
  | nil => rfl
  | cons s rest ih =>
    have hs := h s (by simp)
    simp only [segsAfter_cons, segAfter, hs]
    exact ih fun x hx => h x (by simp [hx])

theorem segsAfter_of_added (l : List Seg)
    (h : ∀ x ∈ l, x.type = SegType.added) : segsAfter l = segsValues l := by
  induction l with
  | nil => rfl
  | cons s rest ih =>
    have hs := h s (by simp)
    simp only [segsAfter_cons, segAfter, hs]
    rw [ih fun x hx => h x (by simp [hx])]
    rfl

theorem splitChange_before (segs : List Seg) :
    segsBefore segs = (splitChange segs).1 ++ segsBefore (splitChange segs).2.2 := by
  rw [splitChange]
  have hdecomp : segs = segs.takeWhile isRemovedSeg ++ segs.dropWhile isRemovedSeg :=
    (List.takeWhile_append_dropWhile ..).symm
  have hdecomp2 : segs.dropWhile isRemovedSeg =
      (segs.dropWhile isRemovedSeg).takeWhile isAddedSeg ++
        (segs.dropWhile isRemovedSeg).dropWhile isAddedSeg :=
    (List.takeWhile_append_dropWhile ..).symm
  conv_lhs => rw [hdecomp, segsBefore_append, hdecomp2, segsBefore_append]
  rw [segsBefore_of_removed _ fun x hx => by
        have := List.mem_takeWhile_imp hx
        simpa [isRemovedSeg] using this,
      segsBefore_of_added _ fun x hx => by
        have := List.mem_takeWhile_imp hx
        simpa [isAddedSeg] using this]
  simp

theorem splitChange_after (segs : List Seg) :
    segsAfter segs = (splitChange segs).2.1 ++ segsAfter (splitChange segs).2.2 := by
  rw [splitChange]
  have hdecomp : segs = segs.takeWhile isRemovedSeg ++ segs.dropWhile isRemovedSeg :=
    (List.takeWhile_append_dropWhile ..).symm
  have hdecomp2 : segs.dropWhile isRemovedSeg =
      (segs.dropWhile isRemovedSeg).takeWhile isAddedSeg ++
        (segs.dropWhile isRemovedSeg).dropWhile isAddedSeg :=
    (List.takeWhile_append_dropWhile ..).symm
  conv_lhs => rw [hdecomp, segsAfter_append, hdecomp2, segsAfter_append]
  rw [segsAfter_of_removed _ fun x hx => by
        have := List.mem_takeWhile_imp hx
        simpa [isRemovedSeg] using this,
      segsAfter_of_added _ fun x hx => by
        have := List.mem_takeWhile_imp hx
        simpa [isAddedSeg] using this]
  simp

theorem groupSegs_before (segs : List Seg) :
    opsBefore (groupSegs segs) = segsBefore segs := by
  induction segs using groupSegs.induct with
  | case1 => rw [groupSegs]; rfl
  | case2 s rest h ih =>
    rw [groupSegs]
    simp only [dif_pos h, opsBefore, List.map_cons, List.flatten_cons]
    rw [segsBefore_cons]
    simp only [segBefore, h]
    rw [← ih]
    rfl
  | case3 s rest h p hcond ih =>
    rw [groupSegs]
    simp only [dif_neg h]
    rw [if_pos (by simpa using hcond)]
    simp only [opsBefore, List.map_cons, List.flatten_cons, opBefore]
    rw [splitChange_before (s :: rest)]
    rw [← ih]
    rfl
  | case4 s rest h p hcond ih =>
    rw [groupSegs]
    simp only [dif_neg h]
    rw [if_neg (by simpa using hcond)]
    rw [splitChange_before (s :: rest)]
    have hp : (splitChange (s :: rest)).1 = [] ∧ (splitChange (s :: rest)).2.1 = [] := by
      simpa using hcond
    rw [hp.1, ← ih]
    rfl

theorem groupSegs_after (segs : List Seg) :
    opsAfter (groupSegs segs) = segsAfter segs := by
  induction segs using groupSegs.induct with
  | case1 => rw [groupSegs]; rfl
  | case2 s rest h ih =>
    rw [groupSegs]
    simp only [dif_pos h, opsAfter, List.map_cons, List.flatten_cons]
    rw [segsAfter_cons]
    simp only [segAfter, h]
    rw [← ih]
    rfl
  | case3 s rest h p hcond ih =>
    rw [groupSegs]
    simp only [dif_neg h]
    rw [if_pos (by simpa using hcond)]
    simp only [opsAfter, List.map_cons, List.flatten_cons, opAfter]
    rw [splitChange_after (s :: rest)]
    rw [← ih]
    rfl
  | case4 s rest h p hcond ih =>
    rw [groupSegs]
    simp only [dif_neg h]
    rw [if_neg (by simpa using hcond)]
    rw [splitChange_after (s :: rest)]
    have hp : (splitChange (s :: rest)).1 = [] ∧ (splitChange (s :: rest)).2.1 = [] := by
      simpa using hcond
    rw [hp.2, ← ih]
    rfl

/-- Round-trip law, before side: the `before`-side projection of the
operation list reconstructs `before` exactly. -/
theorem groupOps_before (before after : Str) :
    opsBefore (groupOps before after) = before := by
  rw [groupOps, groupSegs_before, diffWords_before]

/-- Round-trip law, after side. -/
theorem groupOps_after (before after : Str) :
    opsAfter (groupOps before after) = after := by
  rw [groupOps, groupSegs_after, diffWords_after]

/-! ### Decision store and merge compiler (`commit` in inline-diff-resolver.tsx) -/

/-- The tri-state decision per change op. -/
inductive Decision
  | pending
  | accept
  | decline
deriving DecidableEq, Repr

/-- The body of `commit`'s map: ops are indexed by their absolute position in
the operation list; an equal op contributes its value, a change op contributes
`after` when its decision is accept and `before` otherwise (decline, pending,
or absent decision). -/
def opContrib (decisions : Nat → Decision) (idx : Nat) : Op → Str
  | Op.equal v => v
  | Op.change b a =>
    match decisions idx with
    | Decision.accept => a
    | _ => b

def mergeFrom (decisions : Nat → Decision) : Nat → List Op → Str
  | _, [] => []
  | idx, op :: rest => opContrib decisions idx op ++ mergeFrom decisions (idx + 1) rest

/-- The merged string computed by `commit`. -/
def commitMerged (ops : List Op) (decisions : Nat → Decision) : Str :=
  mergeFrom decisions 0 ops

/-- The indices of the change ops in the operation list, as computed by
`changeIdxs = ops.map((op, idx) => op.type === 'change' ? idx : -1).filter(n => n !== -1)`
(the `-1` sentinel never survives the filter, so this is the running-index
recursion). -/
def changeIdxsFrom : Nat → List Op → List Nat
  | _, [] => []
  | i, Op.equal _ :: rest => changeIdxsFrom (i + 1) rest
  | i, Op.change _ _ :: rest => i :: changeIdxsFrom (i + 1) rest

def changeIdxs (ops : List Op) : List Nat := changeIdxsFrom 0 ops

def Decision.isPending : Decision → Bool
  | Decision.pending => true
  | _ => false

/-- `allResolved` from `commit`: every decision tracked for the operation
list (the decisions are keyed exactly by the change-op indices) is decided. -/
def commitAllResolved (ops : List Op) (decisions : Nat → Decision) : Bool :=
  (changeIdxs ops).all fun i => !(decisions i).isPending

/-- `setDecision`'s store update: `{ ...prev, [idx]: decision }`. -/
def updateDecision (decisions : Nat → Decision) (idx : Nat) (v : Decision) :
    Nat → Decision :=
  fun j => if j = idx then v else decisions j

theorem mergeFrom_accept (decisions : Nat → Decision)
    (hacc : ∀ i, decisions i = Decision.accept) (ops : List Op) (idx : Nat) :
    mergeFrom decisions idx ops = opsAfter ops := by
  induction ops generalizing idx with
  | nil => rfl
  | cons op rest ih =>
    rw [mergeFrom, ih (idx + 1)]
    cases op with
    | equal v => rfl
    | change b a =>
      rw [opContrib, hacc idx]
      rfl

theorem mergeFrom_noAccept (decisions : Nat → Decision)
    (hnacc : ∀ i, decisions i ≠ Decision.accept) (ops : List Op) (idx : Nat) :
    mergeFrom decisions idx ops = opsBefore ops := by
  induction ops generalizing idx with
  | nil => rfl
  | cons op rest ih =>
    rw [mergeFrom, ih (idx + 1)]
    cases op with
    | equal v => rfl
    | change b a =>
      rw [opContrib]
      cases hd : decisions idx with
      | pending => rfl
      | accept => exact absurd hd (hnacc idx)
      | decline => rfl

/-! ### Claims about merging and the round trip -/

/-- C1: merging the operation list of `groupOps(before, after)` with every
change-op decision set to accept yields exactly `after`; equivalently the
after-side projection of the operation list reconstructs `after`, and the
before-side projection reconstructs `before` (round-trip law). -/
theorem merge_acceptAll_eq_after (before after : Str) :
    commitMerged (groupOps before after) (fun _ => Decision.accept) = after ∧
    opsAfter (groupOps before after) = after ∧
    opsBefore (groupOps before after) = before := by
  refine ⟨?_, groupOps_after before after, groupOps_before before after⟩
  rw [commitMerged, mergeFrom_accept _ (fun _ => rfl), groupOps_after]

/-- C2: merging with every change-op decision declined or pending (or any
mixture of the two, i.e. with no decision set to accept) yields exactly
`before`: a pending decision always contributes the original value. -/
theorem merge_noAccept_eq_before (before after : Str) (decisions : Nat → Decision)
    (h : ∀ i, decisions i ≠ Decision.accept) :
    commitMerged (groupOps before after) decisions = before := by
  rw [commitMerged, mergeFrom_noAccept _ h, groupOps_before]

theorem merge_noAccept_eq_before_w :
    commitMerged (groupOps ['a'] ['b']) (fun _ => Decision.pending) = ['a'] :=
  merge_noAccept_eq_before ['a'] ['b'] (fun _ => Decision.pending) (fun _ h => Decision.noConfusion h)

/-- C6: at a mismatch with equal continuation scores
(`dp[i+1][j] = dp[i][j+1]`), the walk consumes from the old sequence first and
emits the removed token before any added token; since the walk is a function
of the two token sequences, the segment sequence is canonical. -/
theorem walk_tieBreak_removed_first (a b : Str) (as bs : List Str)
    (hne : a ≠ b) (htie : lcsScore as (b :: bs) = lcsScore (a :: as) bs) :
    walkSegs (a :: as) (b :: bs) = ⟨a, SegType.removed⟩ :: walkSegs as (b :: bs) := by
  rw [walkSegs_cons_cons, if_neg hne, if_pos htie.ge]

theorem walk_tieBreak_removed_first_w :
    walkSegs [['a']] [['b']] = ⟨['a'], SegType.removed⟩ :: walkSegs [] [['b']] :=
  walk_tieBreak_removed_first ['a'] ['b'] [] [] (by decide) rfl

/-- C10: while the operation list is unchanged, the only decision mutation
writes accept or decline at one index (`setDecision` cannot write pending),
and such an update keeps `allResolved` true once it is true. -/
theorem allResolved_monotone (ops : List Op) (decisions : Nat → Decision)
    (idx : Nat) (v : Decision) (hv : v ≠ Decision.pending)
    (hres : commitAllResolved ops decisions = true) :
    commitAllResolved ops (updateDecision decisions idx v) = true := by
  rw [commitAllResolved, List.all_eq_true] at *
  intro i hi
  have hup : updateDecision decisions idx v i = if i = idx then v else decisions i := rfl
  rw [hup]
  by_cases hii : i = idx
  · rw [if_pos hii]
    cases v with
    | pending => exact absurd rfl hv
    | accept => rfl
    | decline => rfl
  · rw [if_neg hii]
    exact hres i hi

theorem allResolved_monotone_w :
    commitAllResolved [Op.change ['a'] ['b']]
      (updateDecision (fun _ => Decision.accept) 0 Decision.decline) = true :=
  allResolved_monotone [Op.change ['a'] ['b']] (fun _ => Decision.accept) 0
    Decision.decline (by decide) (by decide)

/-! ### Degenerate diffs (claim C5) -/

theorem walkSegs_nil_right (ts : List Str) :
    walkSegs ts [] = ts.map fun x => ⟨x, SegType.removed⟩ := by
  cases ts with
  | nil => rfl
  | cons a as => rfl

theorem walkSegs_self (ts : List Str) :
    walkSegs ts ts = ts.map fun v => ⟨v, SegType.equal⟩ := by
  induction ts with
  | nil => rfl
  | cons a as ih => rw [walkSegs_cons_cons, if_pos rfl, ih, List.map_cons]

theorem foldl_push_run (t : SegType) (vs : List Str) (w : Str) (hw : w ≠ []) :
    (vs.map fun v => (⟨v, t⟩ : Seg)).foldl (fun acc s => push acc s.type s.value)
      [⟨w, t⟩] = [⟨w ++ vs.flatten, t⟩] := by
  induction vs generalizing w with
  | nil => simp
  | cons v vs ih =>
    rw [List.map_cons, List.foldl_cons]
    by_cases hv : v = []
    · subst hv
      have hskip : push [⟨w, t⟩] t [] = [⟨w, t⟩] := by rw [push]; simp
      rw [hskip, ih w hw]
      simp
    · have hpush : push [⟨w, t⟩] t v = [⟨w ++ v, t⟩] := by
        simp [push, hv]
      rw [hpush, ih (w ++ v) (by intro hc; exact hw (List.append_eq_nil.mp hc).1)]
      simp

theorem foldl_push_run_nil (t : SegType) (vs : List Str) :
    (vs.map fun v => (⟨v, t⟩ : Seg)).foldl (fun acc s => push acc s.type s.value) [] =
      if vs.flatten = [] then [] else [⟨vs.flatten, t⟩] := by
  induction vs with
  | nil => rfl
  | cons v vs ih =>
    rw [List.map_cons, List.foldl_cons]
    by_cases hv : v = []
    · subst hv
      have hskip : push [] t [] = [] := by rw [push]; rfl
      rw [hskip, ih]
      simp
    · have hpush : push [] t v = [⟨v, t⟩] := by simp [push, hv]
      rw [hpush, foldl_push_run t vs v hv, if_neg (by simp [hv])]
      simp

theorem groupSegs_nil : groupSegs [] = [] := by rw [groupSegs]

theorem groupSegs_single_equal (v : Str) :
    groupSegs [⟨v, SegType.equal⟩] = [Op.equal v] := by
  rw [groupSegs, dif_pos rfl, groupSegs_nil]

theorem groupSegs_single_added (y : Str) (hy : y ≠ []) :
    groupSegs [⟨y, SegType.added⟩] = [Op.change [] y] := by
  rw [groupSegs, dif_neg (by simp)]
  simp [splitChange, segsValues, isRemovedSeg, isAddedSeg, groupSegs_nil, hy]

theorem groupSegs_single_removed (x : Str) (hx : x ≠ []) :
    groupSegs [⟨x, SegType.removed⟩] = [Op.change x []] := by
  rw [groupSegs, dif_neg (by simp)]
  simp [splitChange, segsValues, isRemovedSeg, isAddedSeg, groupSegs_nil, hx]

theorem groupOps_nil_nil : groupOps [] [] = [] := by
  have hdiff : diffWords [] [] = [] := rfl
  rw [groupOps, hdiff, groupSegs_nil]

theorem groupOps_self (x : Str) (hx : x ≠ []) : groupOps x x = [Op.equal x] := by
  rw [groupOps, diffWords, walkSegs_self, foldl_push_run_nil,
    if_neg (by rw [tokenize_flatten]; exact hx), tokenize_flatten,
    groupSegs_single_equal]

theorem groupOps_nil_left (y : Str) (hy : y ≠ []) :
    groupOps [] y = [Op.change [] y] := by
  have htok : tokenize [] = [] := rfl
  rw [groupOps, diffWords, htok, walkSegs_nil, foldl_push_run_nil,
    if_neg (by rw [tokenize_flatten]; exact hy), tokenize_flatten,
    groupSegs_single_added y hy]

theorem groupOps_nil_right (x : Str) (hx : x ≠ []) :
    groupOps x [] = [Op.change x []] := by
  have htok : tokenize [] = [] := rfl
  rw [groupOps, diffWords, htok, walkSegs_nil_right, foldl_push_run_nil,
    if_neg (by rw [tokenize_flatten]; exact hx), tokenize_flatten,
    groupSegs_single_removed x hx]

/-- C5 counterexample: it is not true that every identical input pair yields
a single equal-op — the empty pair yields an empty operation list. -/
theorem diff_self_single_equal_cex :
    ¬ ∀ x : Str, ∃ v, groupOps x x = [Op.equal v] := by
  intro h
  obtain ⟨v, hv⟩ := h []
  rw [groupOps_nil_nil] at hv
  exact List.noConfusion hv

/-- C5 (amended): `diff(x, x)` has only equal ops and zero change-ops, and is
a single equal-op whenever `x` is nonempty (the empty pair yields an empty
operation list, not a single equal-op); an input pair with exactly one empty
string yields a single change-op whose `before` (resp. `after`) is empty. -/
theorem diff_degenerate (x y : Str) (hx : x ≠ []) (hy : y ≠ []) :
    groupOps x x = [Op.equal x] ∧
    groupOps [] [] = ([] : List Op) ∧
    groupOps [] y = [Op.change [] y] ∧
    groupOps x [] = [Op.change x []] :=
  ⟨groupOps_self x hx, groupOps_nil_nil, groupOps_nil_left y hy,
    groupOps_nil_right x hx⟩

theorem diff_degenerate_w :
    groupOps ['a'] ['a'] = [Op.equal ['a']] ∧
    groupOps [] [] = ([] : List Op) ∧
    groupOps [] ['b'] = [Op.change [] ['b']] ∧
    groupOps ['a'] [] = [Op.change ['a'] []] :=
  diff_degenerate ['a'] ['b'] (by decide) (by decide)

/-! ### Rendering of a change op and the trailing-whitespace rule (claim C4) -/

/-- The trailing-whitespace split performed when rendering a change op:
`m = op.after.match(/(\\s*)$/)`, `trailing = m[1]`,
`addCore = op.after.slice(0, op.after.length - trailing.length)`. -/
def splitTrailingWs (a : Str) : Str × Str :=
  let trailing := (a.reverse.takeWhile isWsChar).reverse
  (a.take (a.length - trailing.length), trailing)

/-- `clipMiddle` from inline-diff-resolver.tsx (`max = 60`). -/
def clipMiddle (text : Str) : Str :=
  if text.length ≤ 60 ∧ ¬ ('\n' ∈ text) then text
  else text.take 30 ++ ['…'] ++ text.drop (text.length - 30)

/-- The visual kind of a rendered text fragment: plain pass-through, the
red/strikethrough removed text, or the green highlighted added text. -/
inductive FragKind
  | plainText
  | colorRemoved
  | colorAdded
deriving DecidableEq, Repr

structure Frag where
  text : Str
  kind : FragKind
deriving DecidableEq, Repr

/-- The text fragments rendered for one op by `InlineDiffResolver`, in order:
an equal op renders its value plain; a change op in the accept state renders
`addCore` plain followed by the trailing whitespace (when nonempty); in the
decline state it renders `before` plain only; in the pending state it renders
`clipMiddle(before)` struck through red (when `before` is nonempty), `addCore`
highlighted green (when nonempty), then the trailing whitespace plain (when
nonempty). -/
def renderOp (op : Op) (d : Decision) : List Frag :=
  match op with
  | Op.equal v => [⟨v, FragKind.plainText⟩]
  | Op.change b a =>
    let addCore := (splitTrailingWs a).1
    let trailing := (splitTrailingWs a).2
    match d with
    | Decision.accept =>
      ⟨addCore, FragKind.plainText⟩ ::
        (if trailing = [] then [] else [⟨trailing, FragKind.plainText⟩])
    | Decision.decline => [⟨b, FragKind.plainText⟩]
    | Decision.pending =>
      (if b = [] then [] else [⟨clipMiddle b, FragKind.colorRemoved⟩]) ++
      (if addCore = [] then [] else [⟨addCore, FragKind.colorAdded⟩]) ++
      (if trailing = [] then [] else [⟨trailing, FragKind.plainText⟩])

theorem splitTrailingWs_core (a : Str) :
    (splitTrailingWs a).1 = (a.reverse.dropWhile isWsChar).reverse := by
  rw [splitTrailingWs]
  dsimp only
  set t := (a.reverse.takeWhile isWsChar).reverse with ht
  set d := (a.reverse.dropWhile isWsChar).reverse with hd
  have hsuffix : d ++ t = a := by
    rw [ht, hd, ← List.reverse_append, List.takeWhile_append_dropWhile,
      List.reverse_reverse]
  rw [← hsuffix, List.length_append]
  simp [List.take_left]

theorem splitTrailingWs_append (a : Str) :
    (splitTrailingWs a).1 ++ (splitTrailingWs a).2 = a := by
  rw [splitTrailingWs_core]
  show _ ++ (splitTrailingWs a).2 = a
  rw [splitTrailingWs]
  dsimp only
  rw [← List.reverse_append, List.takeWhile_append_dropWhile, List.reverse_reverse]

theorem splitTrailingWs_ws (a : Str) :
    ((splitTrailingWs a).2).all isWsChar = true := by
  rw [splitTrailingWs]
  dsimp only
  rw [List.all_eq_true]
  intro c hc
  rw [List.mem_reverse] at hc
  exact List.mem_takeWhile_imp hc

theorem takeWhile_dropWhile_nil {α : Type} (p : α → Bool) (l : List α) :
    (l.dropWhile p).takeWhile p = [] := by
  induction l with
  | nil => rfl
  | cons x xs ih =>
    rw [List.dropWhile_cons]
    by_cases hx : p x
    · rw [if_pos hx]
      exact ih
    · rw [if_neg hx, List.takeWhile_cons, if_neg hx]

/-- The core part carries no trailing whitespace of its own. -/
theorem splitTrailingWs_core_no_ws (a : Str) :
    ((splitTrailingWs a).1.reverse.takeWhile isWsChar) = [] := by
  rw [splitTrailingWs_core, List.reverse_reverse]
  exact takeWhile_dropWhile_nil isWsChar a.reverse

/-- C4 counterexample: for `before = "a"`, `after = "b "` the single change
op has trailing whitespace `" "`, yet with the decline decision neither the
rendered fragments nor the merged text contain it — both are exactly `"a"`.
The trailing whitespace is therefore not contributed to the rendered/merged
result regardless of the decision, and the merge composition performs no
trailing-whitespace split at all. -/
theorem trailingWs_passThrough_cex :
    (splitTrailingWs ['b', ' ']).2 = [' '] ∧
    groupOps ['a'] ['b', ' '] = [Op.change ['a'] ['b', ' ']] ∧
    renderOp (Op.change ['a'] ['b', ' ']) Decision.decline =
      [⟨['a'], FragKind.plainText⟩] ∧
    commitMerged [Op.change ['a'] ['b', ' ']] (fun _ => Decision.decline) = ['a'] := by
  refine ⟨by decide, ?_, by decide, by decide⟩
  have hdiff : diffWords ['a'] ['b', ' '] =
      [⟨['a'], SegType.removed⟩, ⟨['b', ' '], SegType.added⟩] := by decide
  rw [groupOps, hdiff]
  rw [groupSegs, dif_neg (by simp)]
  simp [splitChange, segsValues, isRemovedSeg, isAddedSeg, groupSegs_nil]

/-- C4 (amended): the trailing-whitespace rule is a rendering rule only.  The
split is exact (`addCore ++ trailing = after`), the trailing part is all
whitespace and the core part ends in none; in the rendered fragments the
trailing whitespace is only ever plain pass-through (every colorable fragment
is the clipped `before` text or the trailing-stripped core of `after`), and it
is emitted in the pending and accept states but not in the decline state; the
merge composition performs no split: a change op contributes the whole
`after` (trailing whitespace included) exactly when accepted, else the whole
`before`. -/
theorem trailingWs_passThrough_amended (b a : Str) (d : Decision)
    (ds : Nat → Decision) (i : Nat) :
    (splitTrailingWs a).1 ++ (splitTrailingWs a).2 = a ∧
    ((splitTrailingWs a).2).all isWsChar = true ∧
    ((splitTrailingWs a).1.reverse.takeWhile isWsChar) = [] ∧
    ((renderOp (Op.change b a) d).all fun fr =>
      fr.kind == FragKind.plainText || fr.text == clipMiddle b ||
        fr.text == (splitTrailingWs a).1) = true ∧
    ((splitTrailingWs a).2 = [] ∨ d = Decision.decline ∨
      (⟨(splitTrailingWs a).2, FragKind.plainText⟩ : Frag) ∈
        renderOp (Op.change b a) d) ∧
    renderOp (Op.change b a) Decision.decline = [⟨b, FragKind.plainText⟩] ∧
    opContrib ds i (Op.change b a) =
      (if ds i = Decision.accept then a else b) := by
  refine ⟨splitTrailingWs_append a, splitTrailingWs_ws a,
    splitTrailingWs_core_no_ws a, ?_, ?_, rfl, ?_⟩
  · cases d with
    | accept =>
      by_cases htr : (splitTrailingWs a).2 = [] <;>
        simp [renderOp, htr]
    | decline => simp [renderOp]
    | pending =>
      by_cases hb : b = [] <;>
        by_cases hco : (splitTrailingWs a).1 = [] <;>
          by_cases htr : (splitTrailingWs a).2 = [] <;>
            simp [renderOp, hb, hco, htr]
  · cases d with
    | accept =>
      by_cases htr : (splitTrailingWs a).2 = []
      · exact Or.inl htr
      · refine Or.inr (Or.inr ?_)
        simp [renderOp, htr]
    | decline => exact Or.inr (Or.inl rfl)
    | pending =>
      by_cases htr : (splitTrailingWs a).2 = []
      · exact Or.inl htr
      · refine Or.inr (Or.inr ?_)
        by_cases hb : b = [] <;>
          by_cases hco : (splitTrailingWs a).1 = [] <;>
            simp [renderOp, hb, hco, htr]
  · cases hd : ds i with
    | accept => simp [opContrib, hd]
    | pending => simp [opContrib, hd]
    | decline => simp [opContrib, hd]

/-! ### The per-field resolver instance (claim C7)

`InlineDiffResolver` computes `ops = useMemo(() => groupOps(before, after),
[before, after])` and initialises the decision store with every change index
pending.  The component is mounted under a React `key` that contains both
`before` and `after`, so any change of the input pair remounts it: the
operation list and the decision store are rebuilt together with all
decisions pending (constructor `mount`).  The only other transition is
`setDecision`, which writes accept or decline at the index of a currently
rendered (hence pending) change op. -/

structure ResolverState where
  before : Str
  after : Str
  ops : List Op
  decisions : Nat → Decision

/-- A fresh mount: ops from `groupOps`, every decision pending. -/
def mountResolver (b a : Str) : ResolverState :=
  { before := b, after := a, ops := groupOps b a, decisions := fun _ => Decision.pending }

/-- `setDecision` from inline-diff-resolver.tsx. -/
def setDecision (s : ResolverState) (idx : Nat) (v : Decision) : ResolverState :=
  { s with decisions := updateDecision s.decisions idx v }

inductive RReachable : ResolverState → Prop
  | mount (b a : Str) : RReachable (mountResolver b a)
  | set (s : ResolverState) (idx : Nat) (v : Decision) : RReachable s →
      idx ∈ changeIdxs s.ops → s.decisions idx = Decision.pending →
      v ≠ Decision.pending → RReachable (setDecision s idx v)

/-- Auxiliary invariant: the operation list always matches the current input
pair. -/
theorem resolver_ops_inv (s : ResolverState) (h : RReachable s) :
    s.ops = groupOps s.before s.after := by
  induction h with
  | mount b a => rfl
  | set s idx v hr hmem hpend hv ih => exact ih

theorem groupOps_a_b : groupOps ['a'] ['b'] = [Op.change ['a'] ['b']] := by
  have hdiff : diffWords ['a'] ['b'] =
      [⟨['a'], SegType.removed⟩, ⟨['b'], SegType.added⟩] := by decide
  rw [groupOps, hdiff, groupSegs, dif_neg (by simp)]
  simp [splitChange, segsValues, isRemovedSeg, isAddedSeg, groupSegs_nil]

/-- C7: in every reachable resolver state the operation list is exactly the
one generated from the current `(before, after)` pair, and every non-pending
decision is keyed by a change index of that current operation list — a
decision made against an old operation list can never be read against a newly
generated one, because regenerating the inputs remounts the store with all
decisions pending. -/
theorem resolver_no_stale_decisions (s : ResolverState) (i : Nat)
    (h : RReachable s) (hi : s.decisions i ≠ Decision.pending) :
    s.ops = groupOps s.before s.after ∧ i ∈ changeIdxs s.ops := by
  refine ⟨resolver_ops_inv s h, ?_⟩
  revert hi
  induction h with
  | mount b a => exact fun hi => absurd rfl hi
  | set s idx v hr hmem hpend hv ih =>
    intro hi
    show i ∈ changeIdxs s.ops
    by_cases hii : i = idx
    · subst hii
      exact hmem
    · have hdec : (setDecision s idx v).decisions i = s.decisions i := by
        simp [setDecision, updateDecision, hii]
      rw [hdec] at hi
      exact ih hi

theorem resolver_no_stale_decisions_w :
    (setDecision (mountResolver ['a'] ['b']) 0 Decision.accept).ops =
      groupOps (setDecision (mountResolver ['a'] ['b']) 0 Decision.accept).before
        (setDecision (mountResolver ['a'] ['b']) 0 Decision.accept).after ∧
    0 ∈ changeIdxs (setDecision (mountResolver ['a'] ['b']) 0 Decision.accept).ops :=
  resolver_no_stale_decisions _ 0
    (RReachable.set _ 0 Decision.accept (RReachable.mount ['a'] ['b'])
      (by rw [show (mountResolver ['a'] ['b']).ops = groupOps ['a'] ['b'] from rfl,
            groupOps_a_b]
          decide)
      rfl (by decide))
    (by decide)

/-! ### The field reconciliation controller (`Contact` in workspace-sidebar.tsx) -/

/-- `ContactData` from workspace-sidebar.tsx. -/
structure ContactData where
  text : Str
  email : Str
  subject : Str
deriving DecidableEq, Repr

inductive FieldId
  | email
  | subject
  | text
deriving DecidableEq, Repr

/-- `FieldStatus` from workspace-sidebar.tsx. -/
inductive FieldStatus
  | unchanged
  | pending
  | applied
  | dismissed
deriving DecidableEq, Repr

def FieldStatus.isPending : FieldStatus → Bool
  | FieldStatus.pending => true
  | _ => false

/-- The `Contact` component state: the three field values (`recipient`,
`subject`, `body`), `pendingChanges`, and the status map (updated as a whole
map on every transition). -/
structure ContactState where
  recipient : Str
  subject : Str
  body : Str
  pendingChanges : Option ContactData
  status : FieldId → FieldStatus

def fieldCurrent (s : ContactState) : FieldId → Str
  | FieldId.email => s.recipient
  | FieldId.subject => s.subject
  | FieldId.text => s.body

def proposedFor (d : ContactData) : FieldId → Str
  | FieldId.email => d.email
  | FieldId.subject => d.subject
  | FieldId.text => d.text

def setFieldValue (s : ContactState) : FieldId → Str → ContactState
  | FieldId.email, v => { s with recipient := v }
  | FieldId.subject, v => { s with subject := v }
  | FieldId.text, v => { s with body := v }

/-- `Object.values(nextStatus).some((s) => s === 'pending')`. -/
def anyPending (st : FieldId → FieldStatus) : Bool :=
  (st FieldId.email).isPending || (st FieldId.subject).isPending ||
    (st FieldId.text).isPending

/-- `resolveIfDone` from workspace-sidebar.tsx: clear `pendingChanges` when
no field of the next status map is pending, else leave it as it is. -/
def resolveIfDone (next : FieldId → FieldStatus) (pc : Option ContactData) :
    Option ContactData :=
  if anyPending next then pc else none

/-- The `useEffect` on `incomingContactData`: store the proposal and rebuild
the whole status map — pending where the current value differs from the
proposed one, unchanged otherwise.  (`resolveIfDone` is not called here.) -/
def receiveProposal (s : ContactState) (d : ContactData) : ContactState :=
  { s with
    pendingChanges := some d,
    status := fun f =>
      if fieldCurrent s f ≠ proposedFor d f then FieldStatus.pending
      else FieldStatus.unchanged }

/-- The per-field `onChange` handler passed to `InlineDiffResolver`: store the
merged value, compute the field's next status (`applied` when resolved and the
merged value equals the proposed one, `dismissed` when resolved otherwise,
`pending` when not resolved), replace the status map, and run `resolveIfDone`
when the field left `pending`. -/
def fieldOnChange (s : ContactState) (d : ContactData) (f : FieldId)
    (merged : Str) (allResolved : Bool) : ContactState :=
  let nextState :=
    if allResolved then
      (if merged = proposedFor d f then FieldStatus.applied else FieldStatus.dismissed)
    else FieldStatus.pending
  let next : FieldId → FieldStatus := fun g => if g = f then nextState else s.status g
  let s1 := setFieldValue s f merged
  { s1 with
    status := next,
    pendingChanges :=
      if nextState ≠ FieldStatus.pending then resolveIfDone next s.pendingChanges
      else s.pendingChanges }

/-- `acceptAll` from workspace-sidebar.tsx. -/
def acceptAll (s : ContactState) : ContactState :=
  match s.pendingChanges with
  | none => s
  | some d =>
    { recipient := d.email, subject := d.subject, body := d.text,
      status := fun _ => FieldStatus.applied, pendingChanges := none }

/-- `declineAll` from workspace-sidebar.tsx. -/
def declineAll (s : ContactState) : ContactState :=
  match s.pendingChanges with
  | none => s
  | some _ => { s with status := fun _ => FieldStatus.dismissed, pendingChanges := none }

/-- The initial component state: empty fields, no proposal, all unchanged. -/
def initContact : ContactState :=
  { recipient := [], subject := [], body := [], pendingChanges := none,
    status := fun _ => FieldStatus.unchanged }

/-- The reachable controller states.  A field's diff resolver is mounted only
while a proposal is stored and that field's status is pending, so the
`change` transition carries those guards; the plain inputs (`edit`) are
rendered only outside that situation. -/
inductive CReachable : ContactState → Prop
  | init : CReachable initContact
  | receive (s : ContactState) (d : ContactData) : CReachable s →
      CReachable (receiveProposal s d)
  | change (s : ContactState) (d : ContactData) (f : FieldId) (merged : Str)
      (allResolved : Bool) : CReachable s → s.pendingChanges = some d →
      s.status f = FieldStatus.pending →
      CReachable (fieldOnChange s d f merged allResolved)
  | acceptA (s : ContactState) : CReachable s → CReachable (acceptAll s)
  | declineA (s : ContactState) : CReachable s → CReachable (declineAll s)
  | edit (s : ContactState) (f : FieldId) (v : Str) : CReachable s →
      (s.pendingChanges = none ∨ s.status f ≠ FieldStatus.pending) →
      CReachable (setFieldValue s f v)

/-- C3 counterexample: the stored proposal is not non-null *iff* some field is
pending.  Receiving a proposal whose proposed values all equal the current
values stores the proposal with every status unchanged — it is not discarded
immediately, refuting both the iff and the discard-on-arrival clause. -/
theorem proposal_lifecycle_cex :
    ¬ (∀ s : ContactState, CReachable s →
        (s.pendingChanges.isSome = true ↔ anyPending s.status = true)) := by
  intro h
  have hr : CReachable (receiveProposal initContact ⟨[], [], []⟩) :=
    CReachable.receive initContact ⟨[], [], []⟩ CReachable.init
  have h2 := (h _ hr).mp (by decide)
  exact absurd h2 (by decide)

/-- C3 (amended): in every reachable controller state, if some field's status
is pending then the proposal is still stored (the proposal is never cleared
while a field is pending).  The converse fails: a proposal whose proposed
values all equal the current values is stored with no field pending and is
not discarded until a bulk operation or a later transition clears it. -/
theorem proposal_kept_while_pending (s : ContactState) (h : CReachable s)
    (hp : anyPending s.status = true) : s.pendingChanges.isSome = true := by
  revert hp
  induction h with
  | init => intro hp; exact absurd hp (by decide)
  | receive s d hr ih => intro hp; rfl
  | change s d f merged allResolved hr hpc hpend ih =>
    intro hp
    rw [fieldOnChange]
    dsimp only
    by_cases hns :
        (if allResolved then
          (if merged = proposedFor d f then FieldStatus.applied
           else FieldStatus.dismissed)
         else FieldStatus.pending) ≠ FieldStatus.pending
    · rw [if_pos hns, resolveIfDone]
      rw [fieldOnChange] at hp
      dsimp only at hp
      rw [if_pos (by simpa using hp), hpc]
      rfl
    · rw [if_neg hns, hpc]
      rfl
  | acceptA s hr ih =>
    intro hp
    rw [acceptAll] at hp ⊢
    cases hpc : s.pendingChanges with
    | none =>
      rw [hpc] at hp
      exact ih hp
    | some d =>
      rw [hpc] at hp
      dsimp only at hp
      exact absurd hp (by decide)
  | declineA s hr ih =>
    intro hp
    rw [declineAll] at hp ⊢
    cases hpc : s.pendingChanges with
    | none =>
      rw [hpc] at hp
      exact ih hp
    | some d =>
      rw [hpc] at hp
      dsimp only at hp
      exact absurd hp (by decide)
  | edit s f v hr hguard ih =>
    intro hp
    cases f with
    | email => exact ih hp
    | subject => exact ih hp
    | text => exact ih hp

theorem proposal_kept_while_pending_w :
    (receiveProposal initContact ⟨['a'], [], []⟩).pendingChanges.isSome = true :=
  proposal_kept_while_pending _
    (CReachable.receive initContact ⟨['a'], [], []⟩ CReachable.init) (by decide)

/-- C8: on every decision change the controller stores the merged value as the
field's current value (resolved or not); when the resolver reports
`allResolved = true` the field's status becomes applied exactly when the
merged value equals the proposed value and dismissed otherwise; while
unresolved the status stays pending. -/
theorem field_resolution_rule (s : ContactState) (d : ContactData)
    (f : FieldId) (merged : Str) :
    fieldCurrent (fieldOnChange s d f merged true) f = merged ∧
    fieldCurrent (fieldOnChange s d f merged false) f = merged ∧
    (fieldOnChange s d f merged true).status f =
      (if merged = proposedFor d f then FieldStatus.applied
       else FieldStatus.dismissed) ∧
    (fieldOnChange s d f merged false).status f = FieldStatus.pending := by
  refine ⟨?_, ?_, ?_, ?_⟩
  · cases f <;> simp [fieldOnChange, fieldCurrent, setFieldValue]
  · cases f <;> simp [fieldOnChange, fieldCurrent, setFieldValue]
  · simp [fieldOnChange]
  · simp [fieldOnChange]

/-- A sample reachable controller state holding a proposal. -/
def sampleContactState : ContactState :=
  receiveProposal initContact ⟨['a'], ['b'], ['c']⟩

/-- C9: while a proposal is stored, `acceptAll` sets every tracked field's
current value to its proposed value and every status to applied, `declineAll`
leaves every field's current value unchanged and sets every status to
dismissed, and both clear the proposal immediately. -/
theorem bulk_ops_rule (s : ContactState) (d : ContactData) (f : FieldId)
    (h : s.pendingChanges = some d) :
    fieldCurrent (acceptAll s) f = proposedFor d f ∧
    (acceptAll s).status f = FieldStatus.applied ∧
    (acceptAll s).pendingChanges = none ∧
    fieldCurrent (declineAll s) f = fieldCurrent s f ∧
    (declineAll s).status f = FieldStatus.dismissed ∧
    (declineAll s).pendingChanges = none := by
  simp only [acceptAll, declineAll, h]
  cases f <;> simp [fieldCurrent, proposedFor]

theorem bulk_ops_rule_w :
    fieldCurrent (acceptAll sampleContactState) FieldId.email =
      proposedFor ⟨['a'], ['b'], ['c']⟩ FieldId.email ∧
    (acceptAll sampleContactState).status FieldId.email = FieldStatus.applied ∧
    (acceptAll sampleContactState).pendingChanges = none ∧
    fieldCurrent (declineAll sampleContactState) FieldId.email =
      fieldCurrent sampleContactState FieldId.email ∧
    (declineAll sampleContactState).status FieldId.email = FieldStatus.dismissed ∧
    (declineAll sampleContactState).pendingChanges = none :=
  bulk_ops_rule sampleContactState ⟨['a'], ['b'], ['c']⟩ FieldId.email rfl

end PMatch
